import Mathlib

/-!
Verification of the airfoil CST conversion layer
(`af_opt/components/airfoil.py`).

The file embeds the two pure conversion functions `coords2cst` and
`cst2coords`, the cosine-spaced grid generator `cosspace`, and the
`AirfoilComponent.compute_coords` method.  Real numbers model the
floating-point values.  The external CST basis library (the `cst` and
`fit` functions imported from the third-party `cst` package) is modelled
abstractly as a structure `CSTLib`; theorems that depend on its behaviour
take its contract as explicit hypotheses.
-/

namespace AfOpt

/-- Elementwise combination of two 1-D numpy arrays: equal lengths combine
pointwise, a length-one operand broadcasts against the other, and any other
length combination raises a shape error (modelled as `none`). -/
def npBroadcast (f : ℝ → ℝ → ℝ) (a b : List ℝ) : Option (List ℝ) :=
  if a.length = b.length then some (List.zipWith f a b)
  else if a.length = 1 then some (b.map (f a.headI))
  else if b.length = 1 then some (a.map (fun v => f v b.headI))
  else none

/-- Abstract interface of the external CST basis library (the `cst` package):
an evaluate operation over a grid with a boundary pair `delta` and a
leading-edge exponent `n1`, a fit operation returning coefficients and a
boundary pair (`none` models a raised error), and the library default
leading-edge exponent used when the caller does not pass `n1`. -/
structure CSTLib where
  cst : List ℝ → List ℝ → ℝ × ℝ → ℝ → List ℝ
  fit : List ℝ → List ℝ → ℕ → Option (ℝ × ℝ) → Option ℝ → Option (List ℝ × (ℝ × ℝ))
  n1def : ℝ

/-- The `i`-th grid value of the cosine-spaced grid of `n` points between
`lo` and `hi`. -/
noncomputable def cosspaceF (lo hi : ℝ) (n i : ℕ) : ℝ :=
  lo + (hi - lo) * (1 - Real.cos (Real.pi * i / ((n : ℝ) - 1))) / 2

/-- Modelled from the spec: `cosspace` lives in `af_opt/util`, which is not
under `src/`.  Spec section 4.1: given bounds and a count `n`, produce
`t i = lo + (hi - lo) * (1 - cos (pi * i / (n - 1))) / 2` for `i < n`,
rejecting `n < 2` with an invalid-argument failure (modelled as `none`). -/
noncomputable def cosspace (lo hi : ℝ) (n : ℕ) : Option (List ℝ) :=
  if n < 2 then none
  else some ((List.range n).map (cosspaceF lo hi n))

/-- Embedding of `coords2cst` from `airfoil.py`: camber is `(y_u + y_l) / 2`, thickness is
`y_u - y_l` (numpy elementwise semantics with length-one broadcasting), the
camber is fit with boundary `delta = (0, 0)` and leading-edge exponent
`n1 = 1`, the thickness is fit with the library defaults, and the returned
trailing-edge thickness is the second element of the thickness fit's
boundary pair. -/
noncomputable def coords2cst (lib : CSTLib) (x y_u y_l : List ℝ) (n_ca n_th : ℕ) :
    Option (List ℝ × List ℝ × ℝ) :=
  (npBroadcast (· + ·) y_u y_l).bind (fun s =>
    (npBroadcast (· - ·) y_u y_l).bind (fun t =>
      (lib.fit x (s.map (· / 2)) n_ca (some (0, 0)) (some 1)).bind (fun pca =>
        (lib.fit x t n_th none none).bind (fun pth =>
          some (pca.1, pth.1, pth.2.2)))))

/-- Embedding of `cst2coords` from `airfoil.py`: sample the cosine-spaced grid on `[0, 1]`,
evaluate the camber expansion with `n1 = 1` (default boundary `(0, 0)`), the
thickness expansion with boundary `(0, t_te)` (default `n1`), and reconstruct
`y_u = y_c + t / 2`, `y_l = y_c - t / 2`. -/
noncomputable def cst2coords (lib : CSTLib) (a_ca a_th : List ℝ) (t_te : ℝ)
    (n_coords : ℕ := 100) :
    Option (List ℝ × List ℝ × List ℝ × List ℝ × List ℝ) :=
  (cosspace 0 1 n_coords).map (fun x =>
    let y_c := lib.cst x a_ca (0, 0) 1
    let t := lib.cst x a_th (0, t_te) lib.n1def
    let y_u := List.zipWith (fun c th => c + th / 2) y_c t
    let y_l := List.zipWith (fun c th => c - th / 2) y_c t
    (x, y_u, y_l, y_c, t))

/-- Round-half-to-even of a real to an integer, the rounding mode of
`np.round`. -/
noncomputable def roundEven (v : ℝ) : ℤ :=
  if Int.fract v < 1 / 2 then ⌊v⌋
  else if 1 / 2 < Int.fract v then ⌊v⌋ + 1
  else if ⌊v⌋ % 2 = 0 then ⌊v⌋ else ⌊v⌋ + 1

/-- Model of `np.round(v, p)`: round half to even at `p` decimal places. -/
noncomputable def npRound (p : ℤ) (v : ℝ) : ℝ :=
  (roundEven (v * 10 ^ p) : ℝ) / 10 ^ p

/-- The three integer options declared by `AirfoilComponent.initialize`
(defaults 6, 6 and 100). -/
structure AirfoilOptions where
  n_ca : ℕ := 6
  n_th : ℕ := 6
  n_coords : ℕ := 100

/-- The inputs declared by `AirfoilComponent.setup`: coefficient arrays and
the trailing-edge thickness array (declared shape 1, modelled as a list). -/
structure AirfoilInputs where
  a_ca : List ℝ
  a_th : List ℝ
  t_te : List ℝ

/-- Embedding of `AirfoilComponent.compute_coords`: evaluate `cst2coords` on the inputs,
taking the first element of the `t_te` array and the configured sample count
unless an explicit `n_coords` is given; when a precision is given, round each
of the five sequences independently with `np.round`. -/
noncomputable def AirfoilComponent.compute_coords (lib : CSTLib)
    (opts : AirfoilOptions) (inputs : AirfoilInputs)
    (precision : Option ℤ := none) (n_coords : Option ℕ := none) :
    Option (List ℝ × List ℝ × List ℝ × List ℝ × List ℝ) :=
  (cst2coords lib inputs.a_ca inputs.a_th inputs.t_te.headI
      (match n_coords with
        | none => opts.n_coords
        | some m => m)).map (fun r =>
    match precision with
    | none => r
    | some p =>
      (r.1.map (npRound p), r.2.1.map (npRound p), r.2.2.1.map (npRound p),
        r.2.2.2.1.map (npRound p), r.2.2.2.2.map (npRound p)))

/-- A concrete instance of the external library interface, used to
instantiate theorems at concrete inputs: evaluation returns one zero per
grid point, and fitting succeeds exactly when the grid and the target have
the same length. -/
noncomputable def zeroLib : CSTLib where
  cst := fun x _ _ _ => List.replicate x.length 0
  fit := fun x y n _ _ =>
    if x.length = y.length then some (List.replicate n 0, (0, 0)) else none
  n1def := 1 / 2

/-- Evaluation half of a concrete library on which fitting inverts
evaluation exactly: the coefficients and the boundary pair are laid out at
the head of the output, padded with zeros to the grid length. -/
noncomputable def encodeEval (x a : List ℝ) (d : ℝ × ℝ) : List ℝ :=
  a ++ [d.1, d.2] ++ List.replicate (x.length - (a.length + 2)) 0

/-- Fit half of the concrete library: read the coefficients and the
boundary pair back from the target values. -/
noncomputable def encodeFit (y : List ℝ) (n : ℕ) : List ℝ × (ℝ × ℝ) :=
  (y.take n, (y.getD n 0, y.getD (n + 1) 0))

/-- A concrete library whose fit exactly inverts its evaluate on grids with
enough points; it instantiates the round-trip theorem's hypotheses. -/
noncomputable def encodeLib : CSTLib where
  cst := fun x a d _ => encodeEval x a d
  fit := fun _ y n _ _ => some (encodeFit y n)
  n1def := 1 / 2

/-! Helper lemmas about lists and the cosine-spaced grid. -/

lemma encodeEval_length (x a : List ℝ) (d : ℝ × ℝ)
    (h : a.length + 2 ≤ x.length) : (encodeEval x a d).length = x.length := by
  simp [encodeEval]
  omega

lemma encodeFit_encodeEval (x a : List ℝ) (d1 d2 : ℝ)
    (h : a.length + 2 ≤ x.length) :
    encodeFit (encodeEval x a (d1, d2)) a.length = (a, (d1, d2)) := by
  unfold encodeFit encodeEval
  rw [List.append_assoc]
  simp only [Prod.mk.injEq]
  refine ⟨List.take_left a _, ?_, ?_⟩
  · rw [List.getD_append_right a _ 0 a.length le_rfl]
    simp
  · rw [List.getD_append_right a _ 0 (a.length + 1) (by omega)]
    simp [Nat.add_sub_cancel_left]

lemma getD_map_range (f : ℕ → ℝ) {n i : ℕ} (h : i < n) :
    ((List.range n).map f).getD i 0 = f i := by
  rw [List.getD_eq_getElem?_getD, List.getElem?_map, List.getElem?_range h]
  rfl

lemma zipWith_zipWith_same (h f g : ℝ → ℝ → ℝ) (a b : List ℝ) :
    List.zipWith h (List.zipWith f a b) (List.zipWith g a b) =
      List.zipWith (fun x y => h (f x y) (g x y)) a b := by
  induction a generalizing b with
  | nil => simp
  | cons x xs ih =>
    cases b with
    | nil => simp
    | cons y ys => simp [ih]

lemma zipWith_left_eq (a b : List ℝ) (h : a.length ≤ b.length) :
    List.zipWith (fun x _ => x) a b = a := by
  induction a generalizing b with
  | nil => simp
  | cons x xs ih =>
    cases b with
    | nil => simp at h
    | cons y ys => simpa using ih ys (by simpa using h)

lemma zipWith_right_eq (a b : List ℝ) (h : b.length ≤ a.length) :
    List.zipWith (fun _ y => y) a b = b := by
  induction b generalizing a with
  | nil => simp
  | cons y ys ih =>
    cases a with
    | nil => simp at h
    | cons x xs => simpa using ih xs (by simpa using h)

lemma cosspace_eq {n : ℕ} (h : 2 ≤ n) (lo hi : ℝ) :
    cosspace lo hi n = some ((List.range n).map (cosspaceF lo hi n)) := by
  rw [cosspace, if_neg (by omega)]

lemma cosspaceF_zero (lo hi : ℝ) (n : ℕ) : cosspaceF lo hi n 0 = lo := by
  simp [cosspaceF, Real.cos_zero]

lemma cosspaceF_last (lo hi : ℝ) {n : ℕ} (h : 2 ≤ n) :
    cosspaceF lo hi n (n - 1) = hi := by
  have hne : (n : ℝ) - 1 ≠ 0 := by
    have : (2 : ℝ) ≤ (n : ℝ) := by exact_mod_cast h
    linarith
  have hcast : ((n - 1 : ℕ) : ℝ) = (n : ℝ) - 1 := by
    have : 1 ≤ n := by omega
    push_cast [this]
    ring
  have harg : Real.pi * ((n : ℝ) - 1) / ((n : ℝ) - 1) = Real.pi := by
    field_simp
  rw [cosspaceF, hcast, harg, Real.cos_pi]
  ring

lemma cosspace01_2 : cosspace 0 1 2 = some [0, 1] := by
  rw [cosspace_eq (by norm_num)]
  have h0 : cosspaceF 0 1 2 0 = 0 := cosspaceF_zero 0 1 2
  have h1 : cosspaceF 0 1 2 1 = 1 := by
    have := cosspaceF_last 0 1 (n := 2) (by norm_num)
    simpa using this
  have hr : List.range 2 = [0, 1] := rfl
  rw [hr]
  simp [h0, h1]

lemma cosspaceF_mono {lo hi : ℝ} (hl : lo ≤ hi) {n i j : ℕ} (hn : 2 ≤ n)
    (hij : i ≤ j) (hj : j < n) : cosspaceF lo hi n i ≤ cosspaceF lo hi n j := by
  have hden : (0 : ℝ) < (n : ℝ) - 1 := by
    have : (2 : ℝ) ≤ (n : ℝ) := by exact_mod_cast hn
    linarith
  have hπ : (0 : ℝ) ≤ Real.pi := Real.pi_nonneg
  have hxnn : 0 ≤ Real.pi * (i : ℝ) / ((n : ℝ) - 1) := by positivity
  have hjle : (j : ℝ) ≤ (n : ℝ) - 1 := by
    have hj1 : ((j : ℝ) + 1) ≤ (n : ℝ) := by exact_mod_cast Nat.succ_le_of_lt hj
    linarith
  have hyle : Real.pi * (j : ℝ) / ((n : ℝ) - 1) ≤ Real.pi := by
    rw [div_le_iff₀ hden]
    exact mul_le_mul_of_nonneg_left hjle hπ
  have hxy : Real.pi * (i : ℝ) / ((n : ℝ) - 1) ≤ Real.pi * (j : ℝ) / ((n : ℝ) - 1) := by
    have hij' : (i : ℝ) ≤ (j : ℝ) := by exact_mod_cast hij
    have := mul_le_mul_of_nonneg_left hij' hπ
    exact div_le_div_of_nonneg_right this hden.le
  have hcos := Real.cos_le_cos_of_nonneg_of_le_pi hxnn hyle hxy
  have hmul := mul_le_mul_of_nonneg_left (sub_le_sub_left hcos 1) (sub_nonneg.mpr hl)
  rw [cosspaceF, cosspaceF]
  linarith

lemma recon_sub (c t : List ℝ) (h : c.length = t.length) :
    List.zipWith (fun u l => u - l)
      (List.zipWith (fun a b => a + b / 2) c t)
      (List.zipWith (fun a b => a - b / 2) c t) = t := by
  induction c generalizing t with
  | nil =>
    cases t with
    | nil => simp
    | cons b bs => simp at h
  | cons a as ih =>
    cases t with
    | nil => simp at h
    | cons b bs =>
      have hh : a + b / 2 - (a - b / 2) = b := by ring
      simp only [List.zipWith_cons_cons]
      rw [hh, ih bs (by simpa using h)]

lemma recon_avg (c t : List ℝ) (h : c.length = t.length) :
    List.zipWith (fun u l => (u + l) / 2)
      (List.zipWith (fun a b => a + b / 2) c t)
      (List.zipWith (fun a b => a - b / 2) c t) = c := by
  induction c generalizing t with
  | nil =>
    cases t with
    | nil => simp
    | cons b bs => simp at h
  | cons a as ih =>
    cases t with
    | nil => simp at h
    | cons b bs =>
      have hh : (a + b / 2 + (a - b / 2)) / 2 = a := by ring
      simp only [List.zipWith_cons_cons]
      rw [hh, ih bs (by simpa using h)]

lemma recon_add_map (c t : List ℝ) (h : c.length = t.length) :
    (List.zipWith (fun u l => u + l)
      (List.zipWith (fun a b => a + b / 2) c t)
      (List.zipWith (fun a b => a - b / 2) c t)).map (fun v => v / 2) = c := by
  induction c generalizing t with
  | nil =>
    cases t with
    | nil => simp
    | cons b bs => simp at h
  | cons a as ih =>
    cases t with
    | nil => simp at h
    | cons b bs =>
      have hh : (a + b / 2 + (a - b / 2)) / 2 = a := by ring
      simp only [List.zipWith_cons_cons, List.map_cons]
      rw [hh, ih bs (by simpa using h)]

lemma cosspace_some_length {lo hi : ℝ} {n : ℕ} {g : List ℝ}
    (h : cosspace lo hi n = some g) : g.length = n := by
  rw [cosspace] at h
  by_cases hn : n < 2
  · rw [if_pos hn] at h
    cases h
  · rw [if_neg hn] at h
    injection h with h2
    rw [← h2]
    simp

lemma cst2coords_zeroLib_empty_2 :
    cst2coords zeroLib [] [] 0 2 =
      some ([0, 1], [0, 0], [0, 0], [0, 0], [0, 0]) := by
  rw [cst2coords, cosspace01_2]
  simp [zeroLib]

/-! Claim theorems. -/

/-- C5: for every N ≥ 2 and ordered bounds lo ≤ hi, the cosine-spaced grid
has exactly N values given by t i = lo + (hi-lo)(1 - cos(pi i/(N-1)))/2, its
first element is lo, its last element is hi, and it is monotonically
non-decreasing. -/
theorem C5_parameter_grid_contract (lo hi : ℝ) (n : ℕ) (hn : 2 ≤ n)
    (hlh : lo ≤ hi) :
    ∃ g : List ℝ, cosspace lo hi n = some g ∧ g.length = n ∧
      (∀ i, i < n → g.getD i 0 =
        lo + (hi - lo) * (1 - Real.cos (Real.pi * i / ((n : ℝ) - 1))) / 2) ∧
      g.getD 0 0 = lo ∧ g.getD (n - 1) 0 = hi ∧
      (∀ i j, i ≤ j → j < n → g.getD i 0 ≤ g.getD j 0) := by
  refine ⟨(List.range n).map (cosspaceF lo hi n), cosspace_eq hn lo hi,
    by simp, ?_, ?_, ?_, ?_⟩
  · intro i hi'
    rw [getD_map_range _ hi']
    rfl
  · rw [getD_map_range _ (show 0 < n by omega)]
    exact cosspaceF_zero lo hi n
  · rw [getD_map_range _ (show n - 1 < n by omega)]
    exact cosspaceF_last lo hi hn
  · intro i j hij hj
    rw [getD_map_range _ (lt_of_le_of_lt hij hj), getD_map_range _ hj]
    exact cosspaceF_mono hlh hn hij hj

/-- C5 witness: the contract instantiated at lo = 0, hi = 1, N = 2. -/
theorem C5_parameter_grid_contract_witness :
    ∃ g : List ℝ, cosspace 0 1 2 = some g ∧ g.length = 2 ∧
      (∀ i, i < 2 → g.getD i 0 =
        0 + (1 - 0) * (1 - Real.cos (Real.pi * i / (((2 : ℕ) : ℝ) - 1))) / 2) ∧
      g.getD 0 0 = 0 ∧ g.getD (2 - 1) 0 = 1 ∧
      (∀ i j, i ≤ j → j < 2 → g.getD i 0 ≤ g.getD j 0) :=
  C5_parameter_grid_contract 0 1 2 (by norm_num) (by norm_num)

/-- C9: a requested grid size below two is rejected: cosspace returns an
invalid-argument failure (modelled as none) and hence cst2coords with
n_coords < 2 returns none rather than coordinates. -/
theorem C9_degenerate_grid_rejected (lo hi : ℝ) (n : ℕ) (hn : n < 2)
    (lib : CSTLib) (a_ca a_th : List ℝ) (t_te : ℝ) :
    cosspace lo hi n = none ∧ cst2coords lib a_ca a_th t_te n = none := by
  have h0 : cosspace 0 1 n = none := by rw [cosspace, if_pos hn]
  refine ⟨by rw [cosspace, if_pos hn], ?_⟩
  rw [cst2coords, h0]
  rfl

/-- C9 witness: grid size one is rejected. -/
theorem C9_degenerate_grid_rejected_witness :
    cosspace 0 1 1 = none ∧ cst2coords zeroLib [] [] 0 1 = none :=
  C9_degenerate_grid_rejected 0 1 1 (by norm_num) zeroLib [] [] 0

/-- C2: on any cst2coords output (no rounding applied), y_u minus y_l equals
t and (y_u + y_l)/2 equals y_c at every grid point, given that the external
evaluate operation returns one value per grid point. -/
theorem C2_algebraic_consistency (lib : CSTLib)
    (hlen : ∀ x a d e, (lib.cst x a d e).length = x.length)
    (a_ca a_th : List ℝ) (t_te : ℝ) (n : ℕ) (x y_u y_l y_c t : List ℝ)
    (hout : cst2coords lib a_ca a_th t_te n = some (x, y_u, y_l, y_c, t)) :
    List.zipWith (fun u l => u - l) y_u y_l = t ∧
      List.zipWith (fun u l => (u + l) / 2) y_u y_l = y_c := by
  rw [cst2coords] at hout
  rcases hcos : cosspace 0 1 n with _ | g
  · rw [hcos] at hout
    cases hout
  · rw [hcos] at hout
    simp only [Option.map_some', Option.some.injEq, Prod.mk.injEq] at hout
    obtain ⟨hx, hu, hl, hc, ht⟩ := hout
    subst hu hl hc ht
    have hlc : (lib.cst g a_ca (0, 0) 1).length = g.length := hlen g a_ca _ _
    have hlt : (lib.cst g a_th (0, t_te) lib.n1def).length = g.length :=
      hlen g a_th _ _
    have hct : (lib.cst g a_ca (0, 0) 1).length =
        (lib.cst g a_th (0, t_te) lib.n1def).length := by rw [hlc, hlt]
    exact ⟨recon_sub _ _ hct, recon_avg _ _ hct⟩

/-- C2 witness: the identities on the concrete output of cst2coords at the
empty coefficient vectors, t_te = 0 and two grid points. -/
theorem C2_algebraic_consistency_witness :
    List.zipWith (fun u l => u - l) [(0 : ℝ), 0] [0, 0] = [0, 0] ∧
      List.zipWith (fun u l => (u + l) / 2) [(0 : ℝ), 0] [0, 0] = [0, 0] :=
  C2_algebraic_consistency zeroLib (by intro x a d e; simp [zeroLib]) [] [] 0 2
    [0, 1] [0, 0] [0, 0] [0, 0] [0, 0] cst2coords_zeroLib_empty_2

/-- C7: cst2coords returns five sequences of the requested common length
n_coords, and compute_coords called with an explicit n_coords override
returns sequences of the overridden length, whatever the configured
default. -/
theorem C7_output_arity_and_override (lib : CSTLib)
    (hlen : ∀ x a d e, (lib.cst x a d e).length = x.length)
    (a_ca a_th : List ℝ) (t_te : ℝ) (n : ℕ) (x y_u y_l y_c t : List ℝ)
    (hout : cst2coords lib a_ca a_th t_te n = some (x, y_u, y_l, y_c, t))
    (opts : AirfoilOptions) (inputs : AirfoilInputs) (p : Option ℤ) (m : ℕ)
    (x2 u2 l2 c2 t2 : List ℝ)
    (hout2 : AirfoilComponent.compute_coords lib opts inputs p (some m) =
      some (x2, u2, l2, c2, t2)) :
    (x.length = n ∧ y_u.length = n ∧ y_l.length = n ∧ y_c.length = n ∧
        t.length = n) ∧
      (x2.length = m ∧ u2.length = m ∧ l2.length = m ∧ c2.length = m ∧
        t2.length = m) := by
  have main : ∀ a b : List ℝ, ∀ s : ℝ, ∀ k : ℕ, ∀ gx gu gl gc gt : List ℝ,
      cst2coords lib a b s k = some (gx, gu, gl, gc, gt) →
        gx.length = k ∧ gu.length = k ∧ gl.length = k ∧ gc.length = k ∧
          gt.length = k := by
    intro a b s k gx gu gl gc gt h
    rw [cst2coords] at h
    rcases hcos : cosspace 0 1 k with _ | g
    · rw [hcos] at h
      cases h
    · rw [hcos] at h
      simp only [Option.map_some', Option.some.injEq, Prod.mk.injEq] at h
      obtain ⟨hx, hu, hl, hc, ht⟩ := h
      subst hx hu hl hc ht
      have hg : g.length = k := cosspace_some_length hcos
      have hlc : (lib.cst g a (0, 0) 1).length = k := by rw [hlen, hg]
      have hlt : (lib.cst g b (0, s) lib.n1def).length = k := by
        rw [hlen, hg]
      refine ⟨hg, ?_, ?_, hlc, hlt⟩ <;>
        rw [List.length_zipWith, hlc, hlt, min_self]
  refine ⟨main _ _ _ _ _ _ _ _ _ hout, ?_⟩
  rw [AirfoilComponent.compute_coords.eq_def] at hout2
  rcases hr : cst2coords lib inputs.a_ca inputs.a_th inputs.t_te.headI m
    with _ | r
  · rw [hr] at hout2
    cases hout2
  · rw [hr] at hout2
    obtain ⟨rx, ru, rl, rc, rt⟩ := r
    have hrlen := main _ _ _ _ _ _ _ _ _ hr
    rcases p with _ | p' <;>
      simp only [Option.map_some', Option.some.injEq, Prod.mk.injEq] at hout2 <;>
      obtain ⟨hx, hu, hl, hc, ht⟩ := hout2 <;>
      subst hx hu hl hc ht <;>
      simp_all [List.length_map]

/-- C7 witness: the arity theorem applied to a concrete evaluation with two
grid points and a compute_coords call overriding the default sample count of
100 with 2. -/
theorem C7_output_arity_and_override_witness :
    (([0, 1] : List ℝ).length = 2 ∧ ([0, 0] : List ℝ).length = 2 ∧
        ([0, 0] : List ℝ).length = 2 ∧ ([0, 0] : List ℝ).length = 2 ∧
        ([0, 0] : List ℝ).length = 2) ∧
      (([0, 1] : List ℝ).length = 2 ∧ ([0, 0] : List ℝ).length = 2 ∧
        ([0, 0] : List ℝ).length = 2 ∧ ([0, 0] : List ℝ).length = 2 ∧
        ([0, 0] : List ℝ).length = 2) :=
  C7_output_arity_and_override zeroLib (by intro x a d e; simp [zeroLib])
    [] [] 0 2 [0, 1] [0, 0] [0, 0] [0, 0] [0, 0] cst2coords_zeroLib_empty_2
    ⟨6, 6, 100⟩ ⟨[], [], [0]⟩ none 2 [0, 1] [0, 0] [0, 0] [0, 0] [0, 0]
    (by simp [AirfoilComponent.compute_coords, List.headI,
          cst2coords_zeroLib_empty_2])

/-- C6: determinism of the evaluate path — two calls to cst2coords with
identical coefficient vectors, trailing-edge thickness and sample count
produce identical output sequences; the function reads no other state. -/
theorem C6_determinism (lib : CSTLib) (a_ca a_th b_ca b_th : List ℝ)
    (s t : ℝ) (n m : ℕ) (h1 : a_ca = b_ca) (h2 : a_th = b_th) (h3 : s = t)
    (h4 : n = m) :
    cst2coords lib a_ca a_th s n = cst2coords lib b_ca b_th t m := by
  rw [h1, h2, h3, h4]

/-- C6 witness: the determinism theorem applied at concrete inputs. -/
theorem C6_determinism_witness :
    cst2coords zeroLib [1] [2] 3 4 = cst2coords zeroLib [1] [2] 3 4 :=
  C6_determinism zeroLib [1] [2] [1] [2] 3 3 4 4 rfl rfl rfl rfl

/-- C8: with some precision p, compute_coords rounds each of the five output
sequences independently with np.round at p decimals; with precision none it
returns exactly the cst2coords output. -/
theorem C8_optional_rounding (lib : CSTLib) (opts : AirfoilOptions)
    (inputs : AirfoilInputs) (p : ℤ) (m : Option ℕ) :
    AirfoilComponent.compute_coords lib opts inputs (some p) m =
      (AirfoilComponent.compute_coords lib opts inputs none m).map
        (fun r => (r.1.map (npRound p), r.2.1.map (npRound p),
          r.2.2.1.map (npRound p), r.2.2.2.1.map (npRound p),
          r.2.2.2.2.map (npRound p))) ∧
    AirfoilComponent.compute_coords lib opts inputs none m =
      cst2coords lib inputs.a_ca inputs.a_th inputs.t_te.headI
        (match m with
          | none => opts.n_coords
          | some k => k) := by
  constructor <;>
    rcases hr : cst2coords lib inputs.a_ca inputs.a_th inputs.t_te.headI
        (match m with
          | none => opts.n_coords
          | some k => k) with _ | r <;>
      simp [AirfoilComponent.compute_coords, hr] <;>
        exact hr

/-- C10: compute_coords reads only the first element of the t_te input
array: inputs agreeing on a_ca, a_th and the first element of t_te give
identical outputs, whatever the remaining elements of t_te. -/
theorem C10_t_te_head_only (lib : CSTLib) (opts : AirfoilOptions)
    (i1 i2 : AirfoilInputs) (p : Option ℤ) (m : Option ℕ)
    (hca : i1.a_ca = i2.a_ca) (hth : i1.a_th = i2.a_th)
    (hne1 : i1.t_te ≠ []) (hne2 : i2.t_te ≠ [])
    (hte : i1.t_te.headI = i2.t_te.headI) :
    AirfoilComponent.compute_coords lib opts i1 p m =
      AirfoilComponent.compute_coords lib opts i2 p m := by
  simp only [AirfoilComponent.compute_coords, hca, hth, hte]

/-- C10 witness: two t_te arrays sharing their first element but differing
in their second give identical outputs. -/
theorem C10_t_te_head_only_witness :
    AirfoilComponent.compute_coords zeroLib ⟨6, 6, 100⟩ ⟨[1], [2], [3, 4]⟩
        none none =
      AirfoilComponent.compute_coords zeroLib ⟨6, 6, 100⟩ ⟨[1], [2], [3, 5]⟩
        none none :=
  C10_t_te_head_only zeroLib ⟨6, 6, 100⟩ ⟨[1], [2], [3, 4]⟩ ⟨[1], [2], [3, 5]⟩
    none none rfl rfl (by simp) (by simp) rfl

/-- C3: for equal-length x, y_u, y_l and positive coefficient counts,
coords2cst computes camber as (y_u + y_l)/2 and thickness as y_u - y_l on
the shared grid, fits the camber with boundary delta (0, 0) and leading-edge
exponent fixed to 1, fits the thickness with the library defaults, and
returns as trailing-edge thickness the second element of the thickness
fit's boundary pair. -/
theorem C3_fit_path_decomposition (lib : CSTLib) (x y_u y_l : List ℝ)
    (n_ca n_th : ℕ) (hxu : x.length = y_u.length)
    (hul : y_u.length = y_l.length) (hca : 0 < n_ca) (hth : 0 < n_th) :
    coords2cst lib x y_u y_l n_ca n_th =
      (lib.fit x ((List.zipWith (· + ·) y_u y_l).map (· / 2)) n_ca
          (some (0, 0)) (some 1)).bind (fun pca =>
        (lib.fit x (List.zipWith (· - ·) y_u y_l) n_th none none).map
          (fun pth => (pca.1, pth.1, pth.2.2))) := by
  simp only [coords2cst, npBroadcast, if_pos hul, Option.some_bind]
  cases lib.fit x ((List.zipWith (· + ·) y_u y_l).map (· / 2)) n_ca
      (some (0, 0)) (some 1) with
  | none => rfl
  | some pca =>
    simp only [Option.some_bind]
    cases lib.fit x (List.zipWith (· - ·) y_u y_l) n_th none none with
    | none => rfl
    | some pth => rfl

/-- C3 witness: the decomposition at a concrete equal-length call. -/
theorem C3_fit_path_decomposition_witness :
    coords2cst zeroLib [0, 1] [1, 2] [3, 4] 1 1 =
      (zeroLib.fit [0, 1] ((List.zipWith (· + ·) [(1 : ℝ), 2] [3, 4]).map
          (· / 2)) 1 (some (0, 0)) (some 1)).bind (fun pca =>
        (zeroLib.fit [0, 1] (List.zipWith (· - ·) [(1 : ℝ), 2] [3, 4]) 1 none
            none).map (fun pth => (pca.1, pth.1, pth.2.2))) :=
  C3_fit_path_decomposition zeroLib [0, 1] [1, 2] [3, 4] 1 1 rfl rfl
    (by norm_num) (by norm_num)

/-- C4 counterexample: with a fit that rejects length-mismatched inputs, a
call whose y_u has length one while x and y_l have length three succeeds
through numpy length-one broadcasting and returns a full output, so the
claim that every call with a y_u or y_l length different from x's fails is
false on the code. -/
theorem C4_shape_mismatch_counterexample :
    ([(1 : ℝ)] : List ℝ).length ≠ ([(0 : ℝ), 1 / 2, 1] : List ℝ).length ∧
      coords2cst zeroLib [0, 1 / 2, 1] [1] [0, 0, 0] 2 2 =
        some ([0, 0], [0, 0], 0) := by
  refine ⟨by simp, ?_⟩
  simp [coords2cst, npBroadcast, zeroLib]

/-- C4 amended: a shape mismatch is rejected with no partial output unless
the lengths of y_u and y_l numpy-broadcast (equal lengths, or one of them
one) to a common length equal to the length of x; for any library whose fit
rejects a target whose length differs from the grid's, every
non-broadcastable call returns none. -/
theorem C4_shape_mismatch_amended (lib : CSTLib)
    (hfit : ∀ x y n d e, x.length ≠ y.length → lib.fit x y n d e = none)
    (x y_u y_l : List ℝ) (n_ca n_th : ℕ)
    (hbad : ¬ ((y_u.length = y_l.length ∧ y_u.length = x.length) ∨
        (y_u.length = 1 ∧ y_l.length = x.length) ∨
        (y_l.length = 1 ∧ y_u.length = x.length))) :
    coords2cst lib x y_u y_l n_ca n_th = none := by
  simp only [coords2cst, npBroadcast]
  split_ifs with h1 h2 h3
  · simp only [Option.some_bind]
    rw [hfit]
    · rfl
    · simp only [List.length_map, List.length_zipWith, h1, min_self]
      intro hx
      exact hbad (Or.inl ⟨h1, h1.trans hx.symm⟩)
  · simp only [Option.some_bind]
    rw [hfit]
    · rfl
    · simp only [List.length_map]
      intro hx
      exact hbad (Or.inr (Or.inl ⟨h2, hx.symm⟩))
  · simp only [Option.some_bind]
    rw [hfit]
    · rfl
    · simp only [List.length_map]
      intro hx
      exact hbad (Or.inr (Or.inr ⟨h3, hx.symm⟩))
  · rfl

/-- C4 amended witness: lengths three, one and two do not broadcast to the
grid length, so the call fails. -/
theorem C4_shape_mismatch_amended_witness :
    coords2cst zeroLib [0, 1] [1, 2, 3] [4] 1 1 = none :=
  C4_shape_mismatch_amended zeroLib
    (fun x y n d e h => by simp [zeroLib, if_neg h]) [0, 1] [1, 2, 3] [4] 1 1
    (by simp)

/-- C1: round-trip of the parametric representation: for a library whose
evaluate returns one value per grid point and whose fit exactly recovers
coefficients and boundary pair of curves that are themselves exact CST
expansions of the requested order (the spec's exactly-representable case,
with enough grid points for the fit to be determined), evaluating
cst2coords and fitting the resulting x, y_u, y_l back with matching
coefficient counts returns the original coefficients and trailing-edge
thickness. -/
theorem C1_roundtrip (lib : CSTLib)
    (hlen : ∀ x a d e, a.length + 2 ≤ x.length →
      (lib.cst x a d e).length = x.length)
    (hfitca : ∀ x a, a.length + 2 ≤ x.length →
      lib.fit x (lib.cst x a (0, 0) 1) a.length (some (0, 0)) (some 1) =
        some (a, (0, 0)))
    (hfitth : ∀ x a d, a.length + 2 ≤ x.length →
      lib.fit x (lib.cst x a d lib.n1def) a.length none none = some (a, d))
    (a_ca a_th : List ℝ) (t_te : ℝ) (n : ℕ)
    (hna : a_ca.length + 2 ≤ n) (hnb : a_th.length + 2 ≤ n) :
    (cst2coords lib a_ca a_th t_te n).bind (fun r =>
        coords2cst lib r.1 r.2.1 r.2.2.1 a_ca.length a_th.length) =
      some (a_ca, a_th, t_te) := by
  have hn2 : ¬ n < 2 := by omega
  rw [cst2coords, cosspace, if_neg hn2]
  simp only [Option.map_some', Option.some_bind]
  have hg : ((List.range n).map (cosspaceF 0 1 n)).length = n := by simp
  set g : List ℝ := (List.range n).map (cosspaceF 0 1 n)
  have hga : a_ca.length + 2 ≤ g.length := by rw [hg]; exact hna
  have hgb : a_th.length + 2 ≤ g.length := by rw [hg]; exact hnb
  have hCl : (lib.cst g a_ca (0, 0) 1).length = g.length := hlen _ _ _ _ hga
  have hTl : (lib.cst g a_th (0, t_te) lib.n1def).length = g.length :=
    hlen _ _ _ _ hgb
  have hCT : (lib.cst g a_ca (0, 0) 1).length =
      (lib.cst g a_th (0, t_te) lib.n1def).length := by rw [hCl, hTl]
  have hY : (List.zipWith (fun c th => c + th / 2) (lib.cst g a_ca (0, 0) 1)
        (lib.cst g a_th (0, t_te) lib.n1def)).length =
      (List.zipWith (fun c th => c - th / 2) (lib.cst g a_ca (0, 0) 1)
        (lib.cst g a_th (0, t_te) lib.n1def)).length := by
    simp [List.length_zipWith]
  simp only [coords2cst, npBroadcast, if_pos hY, Option.some_bind]
  rw [recon_add_map _ _ hCT, recon_sub _ _ hCT, hfitca g a_ca hga,
    Option.some_bind, hfitth g a_th (0, t_te) hgb]
  rfl

/-- C1 witness: the round trip at the coefficients (1, 2) for the camber,
(3) for the thickness, trailing-edge thickness 5 and five grid points, on
the concrete exactly-fitting library. -/
theorem C1_roundtrip_witness :
    (cst2coords encodeLib [1, 2] [3] 5 5).bind (fun r =>
        coords2cst encodeLib r.1 r.2.1 r.2.2.1
          ([(1 : ℝ), 2] : List ℝ).length ([(3 : ℝ)] : List ℝ).length) =
      some ([1, 2], [3], 5) :=
  C1_roundtrip encodeLib
    (fun x a d e h => encodeEval_length x a d h)
    (fun x a h => by
      show some (encodeFit (encodeEval x a (0, 0)) a.length) = _
      rw [encodeFit_encodeEval x a 0 0 h])
    (fun x a d h => by
      show some (encodeFit (encodeEval x a d) a.length) = _
      cases d with
      | mk d1 d2 => rw [encodeFit_encodeEval x a d1 d2 h])
    [1, 2] [3] 5 5 (by norm_num) (by norm_num)

end AfOpt
